import Mathlib

/-!
Verification of the klipper host-side motion pipeline specification.

The repository ships the cffi declaration layer (`klippy/chelper/__init__.py`)
and the probing helper (`klippy/extras/probe.py`).  The C implementation files
named in `SOURCE_FILES` (stepcompress.c, moveq.c, trapq.c, itersolve.c,
serialqueue.c, kin_*.c) are not part of the source tree, so their behaviour is
modelled from the specification text, faithful to the declared C signatures.
-/

namespace Klipper

/-- Absolute distance between two clock values, in MCU ticks. -/
def natDist (a b : Nat) : Nat := max a b - min a b

theorem natDist_le_iff {a b m : Nat} : natDist a b ≤ m ↔ a ≤ b + m ∧ b ≤ a + m := by
  unfold natDist
  omega

theorem natDist_self_add (a i : Nat) : natDist a (a + i) = i := by
  unfold natDist
  omega

/-- Modelled from the spec: a Compressed Move Message encodes a run of step
events as an interval and a count (`stepcompress.c` is missing from `src/`).
Decoding from a base clock `last` yields the clocks
`last + interval, last + 2*interval, …, last + count*interval`. -/
structure StepMsg where
  interval : Nat
  count : Nat
deriving Repr, DecidableEq

/-- Modelled from the spec: greedy extension of a constant-interval run.
Starting from the reconstructed clock `last`, it keeps consuming pending step
events as long as the next reconstructed clock (`last + interval`) stays within
`max_error` ticks of the event's true clock; it returns the consumed events and
the remaining ones. -/
def fillRun (last interval max_error : Nat) : List Nat → List Nat × List Nat
  | [] => ([], [])
  | t :: ts =>
    if natDist (last + interval) t ≤ max_error then
      ((t :: (fillRun (last + interval) interval max_error ts).1),
        (fillRun (last + interval) interval max_error ts).2)
    else ([], t :: ts)

theorem fillRun_append (i m : Nat) :
    ∀ (ts : List Nat) (last : Nat),
      (fillRun last i m ts).1 ++ (fillRun last i m ts).2 = ts := by
  intro ts
  induction ts with
  | nil => intro last; simp [fillRun]
  | cons t ts ih =>
    intro last
    by_cases h : natDist (last + i) t ≤ m
    · simp [fillRun, h, ih]
    · simp [fillRun, h]

theorem fillRun_rest_length (i m : Nat) (ts : List Nat) (last : Nat) :
    (fillRun last i m ts).2.length ≤ ts.length := by
  have h := fillRun_append i m ts last
  have := congrArg List.length h
  simp only [List.length_append] at this
  omega

/-- Modelled from the spec (§4.4): `fill` consumes the pending Step Event
sequence and emits Compressed Move Messages.  Each message starts a run at the
first pending event (interval = that event's clock minus the current
reconstructed clock, clamped at zero) and greedily extends the run while every
reconstructed clock stays within `max_error` ticks of the true event clock; a
run is closed as soon as extending it would violate the bound. -/
def stepcompress_fill (last_step_clock max_error : Nat) :
    List Nat → List StepMsg
  | [] => []
  | t :: ts =>
    ⟨t - last_step_clock,
      (fillRun (last_step_clock + (t - last_step_clock)) (t - last_step_clock)
          max_error ts).1.length + 1⟩ ::
      stepcompress_fill
        (last_step_clock +
          ((fillRun (last_step_clock + (t - last_step_clock))
              (t - last_step_clock) max_error ts).1.length + 1) *
            (t - last_step_clock))
        max_error
        (fillRun (last_step_clock + (t - last_step_clock)) (t - last_step_clock)
          max_error ts).2
termination_by events => events.length
decreasing_by
  simp only [List.length_cons]
  have := fillRun_rest_length (t - last_step_clock) max_error ts
    (last_step_clock + (t - last_step_clock))
  omega

/-- Decode one Compressed Move Message from base clock `last`: the clocks
`last + interval, last + 2*interval, …` for `count` events. -/
def decode_msg (last interval : Nat) : Nat → List Nat
  | 0 => []
  | c + 1 => (last + interval) :: decode_msg (last + interval) interval c

/-- Decode a sequence of Compressed Move Messages starting from base clock
`last`; each message advances the base clock by `count * interval`. -/
def decode_msgs (last : Nat) : List StepMsg → List Nat
  | [] => []
  | msg :: msgs =>
    decode_msg last msg.interval msg.count ++
      decode_msgs (last + msg.count * msg.interval) msgs

theorem decode_msg_length (i : Nat) :
    ∀ (c last : Nat), (decode_msg last i c).length = c := by
  intro c
  induction c with
  | zero => intro last; simp [decode_msg]
  | succ c ih => intro last; simp [decode_msg, ih]

theorem fillRun_close (i m : Nat) :
    ∀ (ts : List Nat) (last : Nat),
      List.Forall₂ (fun d t => natDist d t ≤ m)
        (decode_msg last i (fillRun last i m ts).1.length)
        (fillRun last i m ts).1 := by
  intro ts
  induction ts with
  | nil => intro last; simp [fillRun, decode_msg]
  | cons t ts ih =>
    intro last
    by_cases h : natDist (last + i) t ≤ m
    · simp only [fillRun, if_pos h, List.length_cons, decode_msg]
      exact List.Forall₂.cons h (ih (last + i))
    · simp [fillRun, h, decode_msg]

theorem fillRun_rest_head (i m : Nat) :
    ∀ (ts : List Nat) (last p : Nat),
      List.Chain (· < ·) p ts →
      last ≤ p + m →
      ∀ t', (fillRun last i m ts).2.head? = some t' →
        last + (fillRun last i m ts).1.length * i ≤ t' + m := by
  intro ts
  induction ts with
  | nil => intro last p _ _ t' hh; simp [fillRun] at hh
  | cons t ts ih =>
    intro last p hchain hlast t' hh
    cases hchain with
    | cons hpt htail =>
      by_cases h : natDist (last + i) t ≤ m
      · simp only [fillRun, if_pos h, List.length_cons] at hh ⊢
        have hbound : last + i ≤ t + m := (natDist_le_iff.mp h).1
        have hih := ih (last + i) t htail hbound t' hh
        have e : last + ((fillRun (last + i) i m ts).1.length + 1) * i
            = last + i + (fillRun (last + i) i m ts).1.length * i := by ring
        rw [e]
        exact hih
      · have ht : t = t' := by simpa [fillRun, h] using hh
        subst ht
        have hz : (fillRun last i m (t :: ts)).1.length = 0 := by simp [fillRun, h]
        rw [hz]
        omega

theorem stepcompress_fill_close_aux (m : Nat) :
    ∀ (n : Nat) (events : List Nat) (last : Nat),
      events.length ≤ n →
      List.Chain' (· < ·) events →
      (∀ t0, events.head? = some t0 → last ≤ t0 + m) →
      List.Forall₂ (fun d t => natDist d t ≤ m)
        (decode_msgs last (stepcompress_fill last m events)) events := by
  intro n
  induction n with
  | zero =>
    intro events last hlen _ _
    have : events = [] := List.length_eq_zero.mp (Nat.le_zero.mp hlen)
    subst this
    simp [stepcompress_fill, decode_msgs]
  | succ n ih =>
    intro events last hlen hchain hhead
    match events with
    | [] => simp [stepcompress_fill, decode_msgs]
    | t :: ts =>
      have hl : last ≤ t + m := hhead t rfl
      have hBt : natDist (last + (t - last)) t ≤ m := by
        rw [natDist_le_iff]; omega
      have hch : List.Chain (· < ·) t ts := hchain
      rw [stepcompress_fill]
      simp only [decode_msgs, decode_msg]
      have hsplit := fillRun_append (t - last) m ts (last + (t - last))
      have hfirst : List.Forall₂ (fun d t => natDist d t ≤ m)
          ((last + (t - last)) ::
            decode_msg (last + (t - last)) (t - last)
              (fillRun (last + (t - last)) (t - last) m ts).1.length)
          (t :: (fillRun (last + (t - last)) (t - last) m ts).1) :=
        List.Forall₂.cons hBt (fillRun_close (t - last) m ts (last + (t - last)))
      have hrest : List.Forall₂ (fun d t => natDist d t ≤ m)
          (decode_msgs
            (last + ((fillRun (last + (t - last)) (t - last) m ts).1.length + 1)
              * (t - last))
            (stepcompress_fill
              (last + ((fillRun (last + (t - last)) (t - last) m ts).1.length + 1)
                * (t - last)) m
              (fillRun (last + (t - last)) (t - last) m ts).2))
          (fillRun (last + (t - last)) (t - last) m ts).2 := by
        apply ih
        · have h1 := fillRun_rest_length (t - last) m ts (last + (t - last))
          simp only [List.length_cons] at hlen
          omega
        · have : List.Chain' (· < ·)
              ((fillRun (last + (t - last)) (t - last) m ts).1 ++
                (fillRun (last + (t - last)) (t - last) m ts).2) := by
            rw [hsplit]
            exact hchain.tail
          exact this.right_of_append
        · intro t0 ht0
          have hb : last + (t - last) ≤ t + m := (natDist_le_iff.mp hBt).1
          have := fillRun_rest_head (t - last) m ts (last + (t - last)) t hch hb t0 ht0
          have e : last + ((fillRun (last + (t - last)) (t - last) m ts).1.length + 1)
              * (t - last)
              = last + (t - last) +
                (fillRun (last + (t - last)) (t - last) m ts).1.length * (t - last) := by
            ring
          rw [e]
          exact this
      have := List.rel_append hfirst hrest
      simpa only [List.cons_append, hsplit] using this

/-- C1: Round-trip of the Step Compressor — for every Step Event sequence
(strictly increasing clocks after the compressor's last clock), decoding the
emitted Compressed Move Messages reproduces each event clock within
`max_error` MCU ticks of its true clock, and the number of decoded events
equals the number of input events exactly. -/
theorem stepcompress_roundtrip (last_step_clock max_error : Nat)
    (events : List Nat) (h : List.Chain (· < ·) last_step_clock events) :
    List.Forall₂ (fun d t => natDist d t ≤ max_error)
      (decode_msgs last_step_clock
        (stepcompress_fill last_step_clock max_error events)) events ∧
    (decode_msgs last_step_clock
        (stepcompress_fill last_step_clock max_error events)).length
      = events.length := by
  have hforall : List.Forall₂ (fun d t => natDist d t ≤ max_error)
      (decode_msgs last_step_clock
        (stepcompress_fill last_step_clock max_error events)) events := by
    apply stepcompress_fill_close_aux max_error events.length events
      last_step_clock le_rfl
    · exact (show List.Chain' (· < ·) (last_step_clock :: events) from h).tail
    · intro t0 ht0
      cases events with
      | nil => simp at ht0
      | cons t ts =>
        simp only [List.head?_cons, Option.some.injEq] at ht0
        subst ht0
        cases h with
        | cons hlt _ => omega
  exact ⟨hforall, hforall.length_eq⟩

/-- Witness for C1 at a concrete input. -/
theorem stepcompress_roundtrip_witness :
    List.Forall₂ (fun d t => natDist d t ≤ 2)
      (decode_msgs 100 (stepcompress_fill 100 2 [110, 120, 131, 141]))
      [110, 120, 131, 141] ∧
    (decode_msgs 100 (stepcompress_fill 100 2 [110, 120, 131, 141])).length
      = ([110, 120, 131, 141] : List Nat).length :=
  stepcompress_roundtrip 100 2 [110, 120, 131, 141]
    (by norm_num [List.chain_cons])

theorem decode_msg_ge (i : Nat) :
    ∀ (c last t : Nat), t ∈ decode_msg last i c → last ≤ t := by
  intro c
  induction c with
  | zero => intro last t ht; simp [decode_msg] at ht
  | succ c ih =>
    intro last t ht
    simp only [decode_msg, List.mem_cons] at ht
    cases ht with
    | inl h => omega
    | inr h =>
      have := ih (last + i) t h
      omega

theorem decode_msgs_ge :
    ∀ (msgs : List StepMsg) (last t : Nat), t ∈ decode_msgs last msgs → last ≤ t := by
  intro msgs
  induction msgs with
  | nil => intro last t ht; simp [decode_msgs] at ht
  | cons msg msgs ih =>
    intro last t ht
    simp only [decode_msgs, List.mem_append] at ht
    cases ht with
    | inl h => exact decode_msg_ge msg.interval msg.count last t h
    | inr h =>
      have := ih (last + msg.count * msg.interval) t h
      omega

/-- Error raised by the Step Compressor when a reset would move time backward
(spec §7). -/
inductive StepCompressError where
  | ClockRegressionError
deriving Repr, DecidableEq

/-- Modelled from the spec: the Step Compressor's configuration and state as
declared in `defs_stepcompress` (`stepcompress.c` is missing from `src/`):
the allocation oid, the `fill` parameters, and the clock of the last emitted
step message. -/
structure StepCompress where
  oid : Nat
  max_error : Nat
  invert_sdir : Bool
  queue_step_msgid : Nat
  set_next_step_dir_msgid : Nat
  last_step_clock : Nat
deriving Repr, DecidableEq

/-- Modelled from the spec (§4.4): `reset(last_step_clock)` rebases the
compressor's internal clock origin and fails with `ClockRegressionError` if
`last_step_clock` would move time backward relative to already-emitted
messages. -/
def stepcompress_reset (sc : StepCompress) (last_step_clock : Nat) :
    Except StepCompressError StepCompress :=
  if last_step_clock < sc.last_step_clock then
    .error .ClockRegressionError
  else
    .ok { sc with last_step_clock := last_step_clock }

/-- C3: after a successful `reset(last_step_clock)`, every clock of every
subsequently emitted Compressed Move Message is ≥ `last_step_clock`; and
`reset` fails with `ClockRegressionError` exactly when `last_step_clock`
would move time backward relative to already-emitted messages. -/
theorem stepcompress_reset_clock_monotonic (sc : StepCompress) (c : Nat) :
    (stepcompress_reset sc c = .error .ClockRegressionError ↔
      c < sc.last_step_clock) ∧
    (∀ sc', stepcompress_reset sc c = .ok sc' →
      ∀ (events : List Nat) (t : Nat),
        t ∈ decode_msgs sc'.last_step_clock
            (stepcompress_fill sc'.last_step_clock sc'.max_error events) →
        c ≤ t) := by
  constructor
  · constructor
    · intro h
      by_contra hc
      rw [stepcompress_reset, if_neg hc] at h
      exact Except.noConfusion h
    · intro h
      rw [stepcompress_reset, if_pos h]
  · intro sc' h events t ht
    have hsc' : sc'.last_step_clock = c := by
      by_cases hc : c < sc.last_step_clock
      · rw [stepcompress_reset, if_pos hc] at h
        exact Except.noConfusion h
      · rw [stepcompress_reset, if_neg hc] at h
        injection h with h2
        rw [← h2]
    have := decode_msgs_ge _ sc'.last_step_clock t ht
    omega

/-- Witness for C3 at concrete inputs: a regressing reset fails, and a clock
decoded after a successful reset is above the reset clock. -/
theorem stepcompress_reset_clock_monotonic_witness :
    stepcompress_reset ⟨0, 2, false, 5, 6, 50⟩ 40 = .error .ClockRegressionError ∧
    (60 ≤ 70 ∧ 70 ∈ decode_msgs 60 (stepcompress_fill 60 2 [70, 80])) := by
  have hmem : 70 ∈ decode_msgs 60 (stepcompress_fill 60 2 [70, 80]) := by
    simp [stepcompress_fill, fillRun, natDist, decode_msgs, decode_msg]
  refine ⟨(stepcompress_reset_clock_monotonic ⟨0, 2, false, 5, 6, 50⟩ 40).1.mpr
    (by decide), ?_, hmem⟩
  exact (stepcompress_reset_clock_monotonic ⟨0, 2, false, 5, 6, 50⟩ 60).2
    ⟨0, 2, false, 5, 6, 60⟩ rfl [70, 80] 70 hmem

/-- Modelled from the spec: the `trap_accel_decel` record declared in
`defs_trapq` (`trapq.c` is missing from `src/`): accel time, cruise time,
decel time, start velocity, cruise velocity, acceleration and acceleration
order.  C doubles are modelled as rationals. -/
structure TrapAccelDecel where
  accel_t : ℚ
  cruise_t : ℚ
  decel_t : ℚ
  start_v : ℚ
  cruise_v : ℚ
  accel : ℚ
  accel_order : ℤ
deriving Repr, DecidableEq

/-- Modelled from the spec: a Finalized Trajectory Segment as appended by
`trapq_append` (`trapq.c` is missing from `src/`): start print-time, start
position, direction ratios, and the accel/cruise/decel record. -/
structure TrapqMove where
  print_time : ℚ
  start_pos_x : ℚ
  start_pos_y : ℚ
  start_pos_z : ℚ
  axes_r_x : ℚ
  axes_r_y : ℚ
  axes_r_z : ℚ
  accel_decel : TrapAccelDecel
deriving Repr, DecidableEq

/-- Total duration of a trajectory segment. -/
def TrapqMove.move_t (m : TrapqMove) : ℚ :=
  m.accel_decel.accel_t + m.accel_decel.cruise_t + m.accel_decel.decel_t

/-- Modelled from the spec (§4.2): `trapq_append` inserts a new segment at the
end of the queue (append-only, monotonic in start print-time). -/
def trapq_append (tq : List TrapqMove) (print_time : ℚ)
    (start_pos_x start_pos_y start_pos_z : ℚ)
    (axes_r_x axes_r_y axes_r_z : ℚ) (accel_decel : TrapAccelDecel) :
    List TrapqMove :=
  tq ++ [⟨print_time, start_pos_x, start_pos_y, start_pos_z,
          axes_r_x, axes_r_y, axes_r_z, accel_decel⟩]

/-- Modelled from the spec (§4.2): `trapq_free_moves(before_time)` discards,
from the front of the queue, every segment fully in the past relative to
`before_time` (end-time strictly before it), stopping at the first segment
still needed. -/
def trapq_free_moves : List TrapqMove → ℚ → List TrapqMove
  | [], _ => []
  | m :: ms, print_time =>
    if m.print_time + m.move_t < print_time then trapq_free_moves ms print_time
    else m :: ms

/-- C4: pruning safety — `free_moves(t)` removes only segments whose end-time
precedes `t`: the queue after pruning is a suffix of the original queue, every
dropped segment has end-time < `t`, and every segment with end-time ≥ `t`
remains in the queue. -/
theorem trapq_free_moves_safe (tq : List TrapqMove) (t : ℚ) :
    (∃ dropped, tq = dropped ++ trapq_free_moves tq t ∧
      ∀ m ∈ dropped, m.print_time + m.move_t < t) ∧
    (∀ m ∈ tq, t ≤ m.print_time + m.move_t → m ∈ trapq_free_moves tq t) := by
  induction tq with
  | nil =>
    refine ⟨⟨[], by simp [trapq_free_moves]⟩, ?_⟩
    intro m hm
    simp at hm
  | cons m ms ih =>
    by_cases h : m.print_time + m.move_t < t
    · obtain ⟨⟨dropped, hsplit, hdrop⟩, hkeep⟩ := ih
      constructor
      · refine ⟨m :: dropped, ?_, ?_⟩
        · rw [trapq_free_moves, if_pos h, List.cons_append, ← hsplit]
        · intro x hx
          rcases List.mem_cons.mp hx with hx | hx
          · subst hx; exact h
          · exact hdrop x hx
      · intro x hx hxt
        rcases List.mem_cons.mp hx with hx | hx
        · subst hx; exact absurd h (not_lt.mpr hxt)
        · simp only [trapq_free_moves, if_pos h]
          exact hkeep x hx hxt
    · constructor
      · refine ⟨[], ?_, ?_⟩
        · simp [trapq_free_moves, if_neg h]
        · intro x hx; simp at hx
      · intro x hx _
        simpa only [trapq_free_moves, if_neg h] using hx

/-- Witness for C4 at a concrete queue: the segment ending at time 3 is
dropped by `free_moves(4)` and the segment ending at 5 is kept. -/
theorem trapq_free_moves_safe_witness :
    (∃ dropped,
      [(⟨0, 0, 0, 0, 1, 0, 0, ⟨1, 1, 1, 0, 2, 2, 2⟩⟩ : TrapqMove),
       ⟨3, 6, 0, 0, 1, 0, 0, ⟨1, 0, 1, 0, 2, 2, 2⟩⟩] =
        dropped ++ trapq_free_moves
          [⟨0, 0, 0, 0, 1, 0, 0, ⟨1, 1, 1, 0, 2, 2, 2⟩⟩,
           ⟨3, 6, 0, 0, 1, 0, 0, ⟨1, 0, 1, 0, 2, 2, 2⟩⟩] 4 ∧
      ∀ m ∈ dropped, m.print_time + m.move_t < 4) ∧
    (∀ m ∈ [(⟨0, 0, 0, 0, 1, 0, 0, ⟨1, 1, 1, 0, 2, 2, 2⟩⟩ : TrapqMove),
            ⟨3, 6, 0, 0, 1, 0, 0, ⟨1, 0, 1, 0, 2, 2, 2⟩⟩],
      (4 : ℚ) ≤ m.print_time + m.move_t →
        m ∈ trapq_free_moves
          [⟨0, 0, 0, 0, 1, 0, 0, ⟨1, 1, 1, 0, 2, 2, 2⟩⟩,
           ⟨3, 6, 0, 0, 1, 0, 0, ⟨1, 0, 1, 0, 2, 2, 2⟩⟩] 4) :=
  trapq_free_moves_safe
    [⟨0, 0, 0, 0, 1, 0, 0, ⟨1, 1, 1, 0, 2, 2, 2⟩⟩,
     ⟨3, 6, 0, 0, 1, 0, 0, ⟨1, 0, 1, 0, 2, 2, 2⟩⟩] 4

/-- Modelled from the spec (§4.2): distance travelled within a segment at
time `τ` after its start, computed analytically from the accel/cruise/decel
piecewise integral of a trapezoidal profile. -/
def TrapAccelDecel.dist (ad : TrapAccelDecel) (τ : ℚ) : ℚ :=
  if τ ≤ ad.accel_t then
    ad.start_v * τ + ad.accel * τ ^ 2 / 2
  else
    (ad.start_v * ad.accel_t + ad.accel * ad.accel_t ^ 2 / 2) +
      (if τ ≤ ad.accel_t + ad.cruise_t then
        ad.cruise_v * (τ - ad.accel_t)
      else
        ad.cruise_v * ad.cruise_t +
          (ad.cruise_v * (τ - ad.accel_t - ad.cruise_t) -
            ad.accel * (τ - ad.accel_t - ad.cruise_t) ^ 2 / 2))

/-- Position of a segment along the x axis at absolute print-time `t`, with
time clamped into the segment's duration. -/
def TrapqMove.posX (mv : TrapqMove) (t : ℚ) : ℚ :=
  mv.start_pos_x + mv.axes_r_x * mv.accel_decel.dist
    (max 0 (min (t - mv.print_time) mv.move_t))

/-- Position of the trajectory queue along x at print-time `t`: the position
of the segment containing `t`, each segment being read until the next one
starts. -/
def trapq_posX : List TrapqMove → ℚ → ℚ
  | [], _ => 0
  | [mv], t => mv.posX t
  | mv :: mv2 :: ms, t =>
    if t < mv2.print_time then mv.posX t else trapq_posX (mv2 :: ms) t

/-- Integer clock ticks lying in the half-open window `(lo, hi]`. -/
def ticksIn (lo hi : ℚ) : List ℤ :=
  (List.range (⌊hi⌋ - ⌊lo⌋).toNat).map (fun k => ⌊lo⌋ + 1 + (k : ℤ))

/-- Modelled from the spec (§4.3): walk the clock ticks of a window in order;
at each tick move the commanded step count to the step index of the current
queue position (position divided by step distance), emitting one Step Event
(tick, new commanded count) at every tick where the count changes. -/
def stepsAtTicks (tq : List TrapqMove) (step_dist : ℚ) :
    List ℤ → ℤ → List (ℤ × ℤ)
  | [], _ => []
  | n :: ns, cp =>
    if ⌊trapq_posX tq (n : ℚ) / step_dist⌋ = cp then
      stepsAtTicks tq step_dist ns cp
    else
      (n, ⌊trapq_posX tq (n : ℚ) / step_dist⌋) ::
        stepsAtTicks tq step_dist ns ⌊trapq_posX tq (n : ℚ) / step_dist⌋

/-- Modelled from the spec: per-stepper solver state from `defs_itersolve`
(`itersolve.c` is missing from `src/`): the stepper's step distance, its
commanded step position, and the last flush time already generated. -/
structure StepperKinematics where
  step_dist : ℚ
  commanded_pos : ℤ
  last_flush_time : ℚ
deriving Repr, DecidableEq

/-- Modelled from the spec (§4.3): `generate_steps(flush_time)` walks the
Trajectory Queue from the last-generated time up to `flush_time`, emitting a
Step Event at each clock tick where the queue position crosses a new multiple
of the step distance, updates the commanded step count, and records
`flush_time` as the new last-generated time. -/
def itersolve_generate_steps (tq : List TrapqMove) (sk : StepperKinematics)
    (flush_time : ℚ) : List (ℤ × ℤ) × StepperKinematics :=
  if flush_time ≤ sk.last_flush_time then ([], sk)
  else
    (stepsAtTicks tq sk.step_dist (ticksIn sk.last_flush_time flush_time)
        sk.commanded_pos,
      { sk with
          last_flush_time := flush_time,
          commanded_pos :=
            ((stepsAtTicks tq sk.step_dist
                (ticksIn sk.last_flush_time flush_time)
                sk.commanded_pos).getLast?.map Prod.snd).getD
              sk.commanded_pos })

/-- C5: idempotence of `generate_steps` — calling it a second time with the
same flush time `t` and no intervening Trajectory Queue append produces no
additional Step Events. -/
theorem itersolve_generate_steps_idempotent (tq : List TrapqMove)
    (sk : StepperKinematics) (t : ℚ) :
    (itersolve_generate_steps tq (itersolve_generate_steps tq sk t).2 t).1
      = [] := by
  by_cases h : t ≤ sk.last_flush_time
  · have h2 : (itersolve_generate_steps tq sk t).2 = sk := by
      rw [itersolve_generate_steps, if_pos h]
    rw [h2, itersolve_generate_steps, if_pos h]
  · have h2 : (itersolve_generate_steps tq sk t).2.last_flush_time = t := by
      rw [itersolve_generate_steps, if_neg h]
    rw [itersolve_generate_steps, if_pos (le_of_eq h2.symm)]

/-- Error raised by the Planner on bad input (spec §7). -/
inductive MoveqError where
  | InvalidMoveError
deriving Repr, DecidableEq

/-- Modelled from the spec: a candidate move buffered by the Planner, with
exactly the parameters of `moveq_add` as declared in `defs_moveq`
(`moveq.c` is missing from `src/`). -/
structure MoveqMove where
  move_d : ℚ
  junction_max_v2 : ℚ
  velocity : ℚ
  accel_order : ℤ
  accel : ℚ
  smoothed_accel : ℚ
  jerk : ℚ
  min_jerk_limit_time : ℚ
  accel_comp : ℚ
deriving Repr, DecidableEq

/-- Modelled from the spec (§4.1): `add_move` appends a candidate move and
fails with `InvalidMoveError` if the distance or the requested velocity is
not positive. -/
def moveq_add (mq : List MoveqMove) (move_d junction_max_v2 velocity : ℚ)
    (accel_order : ℤ)
    (accel smoothed_accel jerk min_jerk_limit_time accel_comp : ℚ) :
    Except MoveqError (List MoveqMove) :=
  if move_d ≤ 0 ∨ velocity ≤ 0 then
    .error .InvalidMoveError
  else
    .ok (mq ++ [⟨move_d, junction_max_v2, velocity, accel_order, accel,
      smoothed_accel, jerk, min_jerk_limit_time, accel_comp⟩])

/-- Modelled from the spec (§4.1): the backward velocity-limiting pass, in
squared-velocity space.  Walking the buffered moves from the last to the
first, each move's entry velocity² is clamped to the minimum of its junction
limit and the velocity² reachable by decelerating through the move from the
next move's entry; returns the per-move entry limits together with the first
move's limit. -/
def moveq_backward_pass : List MoveqMove → List ℚ × ℚ
  | [] => ([], 0)
  | mv :: ms =>
    ((min mv.junction_max_v2 ((moveq_backward_pass ms).2 +
        2 * mv.accel * mv.move_d)) ::
        (moveq_backward_pass ms).1,
      min mv.junction_max_v2 ((moveq_backward_pass ms).2 +
        2 * mv.accel * mv.move_d))

/-- A move's velocity profile finalized by the forward pass, in
squared-velocity space. -/
structure PlannedMove where
  start_v2 : ℚ
  cruise_v2 : ℚ
  end_v2 : ℚ
deriving Repr, DecidableEq

/-- Entry limit of the next buffered move (0 past the end of the buffer). -/
def nextLimit : List ℚ → ℚ
  | [] => 0
  | l :: _ => l

/-- Modelled from the spec (§4.1): the forward velocity-limiting pass, in
squared-velocity space.  Each move's start velocity² is clamped to its
backward-pass entry limit and the previous move's exit velocity²; its cruise
velocity² is clamped to the requested velocity² and the velocity² reachable
by accelerating from the start over the move's distance; its exit velocity²
is clamped to the cruise velocity² and the next move's entry limit. -/
def moveq_forward_pass : ℚ → List MoveqMove → List ℚ → List PlannedMove
  | _, [], _ => []
  | _, _ :: _, [] => []
  | prev_end_v2, mv :: ms, l :: ls =>
    ⟨min l prev_end_v2,
      min (mv.velocity * mv.velocity)
        (min l prev_end_v2 + 2 * mv.accel * mv.move_d),
      min (min (mv.velocity * mv.velocity)
        (min l prev_end_v2 + 2 * mv.accel * mv.move_d)) (nextLimit ls)⟩ ::
      moveq_forward_pass
        (min (min (mv.velocity * mv.velocity)
          (min l prev_end_v2 + 2 * mv.accel * mv.move_d)) (nextLimit ls))
        ms ls

/-- Modelled from the spec (§4.1): `plan` runs the backward then the forward
velocity-limiting pass over the buffered candidate moves, starting the
forward pass from the exit velocity² `start_v2` of the already-flushed
moves. -/
def moveq_plan (mq : List MoveqMove) (start_v2 : ℚ) : List PlannedMove :=
  moveq_forward_pass start_v2 mq (moveq_backward_pass mq).1

theorem moveq_backward_pass_le :
    ∀ (mq : List MoveqMove),
      List.Forall₂ (fun l mv => l ≤ mv.junction_max_v2)
        (moveq_backward_pass mq).1 mq := by
  intro mq
  induction mq with
  | nil => simp [moveq_backward_pass]
  | cons mv ms ih =>
    exact List.Forall₂.cons (min_le_left _ _) ih

theorem moveq_forward_pass_le :
    ∀ (mq : List MoveqMove) (ls : List ℚ) (v0 : ℚ),
      List.Forall₂ (fun l mv => l ≤ mv.junction_max_v2) ls mq →
      List.Forall₂ (fun p mv => p.start_v2 ≤ mv.junction_max_v2 ∧
          p.cruise_v2 ≤ p.start_v2 + 2 * mv.accel * mv.move_d)
        (moveq_forward_pass v0 mq ls) mq := by
  intro mq
  induction mq with
  | nil => intro ls v0 _; simp [moveq_forward_pass]
  | cons mv ms ih =>
    intro ls v0 hls
    cases hls with
    | cons hl hrest =>
      refine List.Forall₂.cons ⟨?_, ?_⟩ (ih _ _ hrest)
      · exact le_trans (min_le_left _ _) hl
      · exact min_le_right _ _

theorem moveq_forward_pass_chain :
    ∀ (mq : List MoveqMove) (ls : List ℚ) (p : PlannedMove),
      List.Chain (fun p q => q.start_v2 ≤ p.end_v2) p
        (moveq_forward_pass p.end_v2 mq ls) := by
  intro mq
  induction mq with
  | nil => intro ls p; simp [moveq_forward_pass]
  | cons mv ms ih =>
    intro ls p
    cases ls with
    | nil => simp [moveq_forward_pass]
    | cons l ls =>
      refine List.Chain.cons (min_le_right _ _) ?_
      exact ih ls _

/-- C2: planner velocity limits — after `plan`, every finalized move's entry
velocity² (the velocity at the junction with the previous move) is at most
its supplied `junction_max_v2`; each move's cruise velocity² is at most the
velocity² reachable by accelerating from its own start; and each move's
start velocity² is at most the previous move's exit velocity² (so the cruise
velocity² never exceeds the accel-limited velocity² reachable from the
previous move's exit). -/
theorem moveq_plan_velocity_limits (mq : List MoveqMove) (start_v2 : ℚ) :
    List.Forall₂ (fun p mv => p.start_v2 ≤ mv.junction_max_v2 ∧
        p.cruise_v2 ≤ p.start_v2 + 2 * mv.accel * mv.move_d)
      (moveq_plan mq start_v2) mq ∧
    List.Chain (fun p q => q.start_v2 ≤ p.end_v2)
      ⟨start_v2, start_v2, start_v2⟩ (moveq_plan mq start_v2) :=
  ⟨moveq_forward_pass_le mq (moveq_backward_pass mq).1 start_v2
      (moveq_backward_pass_le mq),
    moveq_forward_pass_chain mq (moveq_backward_pass mq).1
      ⟨start_v2, start_v2, start_v2⟩⟩

/-- C6: `add_move` contract — it takes exactly the nine declared parameters,
appends the corresponding candidate move on success, and fails with
`InvalidMoveError` exactly when the distance or the requested velocity is not
positive. -/
theorem moveq_add_contract (mq : List MoveqMove)
    (move_d junction_max_v2 velocity : ℚ) (accel_order : ℤ)
    (accel smoothed_accel jerk min_jerk_limit_time accel_comp : ℚ) :
    (moveq_add mq move_d junction_max_v2 velocity accel_order accel
        smoothed_accel jerk min_jerk_limit_time accel_comp
      = .error .InvalidMoveError ↔ move_d ≤ 0 ∨ velocity ≤ 0) ∧
    (0 < move_d → 0 < velocity →
      moveq_add mq move_d junction_max_v2 velocity accel_order accel
          smoothed_accel jerk min_jerk_limit_time accel_comp
        = .ok (mq ++ [⟨move_d, junction_max_v2, velocity, accel_order, accel,
            smoothed_accel, jerk, min_jerk_limit_time, accel_comp⟩])) := by
  constructor
  · constructor
    · intro h
      by_contra hc
      rw [moveq_add, if_neg hc] at h
      exact Except.noConfusion h
    · intro h
      rw [moveq_add, if_pos h]
  · intro hd hv
    rw [moveq_add, if_neg (by push_neg; exact ⟨hd, hv⟩)]

/-- Witness for C6 at concrete inputs: a zero-distance move is rejected and a
valid move is appended. -/
theorem moveq_add_contract_witness :
    moveq_add [] 0 25 5 2 100 50 0 0 0 = .error .InvalidMoveError ∧
    moveq_add [] 10 25 5 2 100 50 0 0 0
      = .ok [⟨10, 25, 5, 2, 100, 50, 0, 0, 0⟩] :=
  ⟨(moveq_add_contract [] 0 25 5 2 100 50 0 0 0).1.mpr (by norm_num),
    (moveq_add_contract [] 10 25 5 2 100 50 0 0 0).2 (by norm_num) (by norm_num)⟩

/-- Maximum payload size of a transport message, from the
`#define MESSAGE_MAX 64` in `defs_serialqueue`. -/
def MESSAGE_MAX : Nat := 64

/-- A frame of the transport wire format (spec §6): command id, sequence
number, payload, and checksum.  The payload bound models the fixed
`uint8_t msg[MESSAGE_MAX]` buffer of `struct pull_queue_message` declared in
`defs_serialqueue`. -/
structure WireFrame where
  cmd_id : Nat
  seq : Nat
  payload : List Nat
  checksum : Nat
  payload_le : payload.length ≤ MESSAGE_MAX

/-- Error returned when framing an oversized payload. -/
inductive SerialqueueError where
  | MessageTooLarge
deriving Repr, DecidableEq

/-- Modelled from the spec: the `struct pull_queue_message` of
`defs_serialqueue` — message bytes, length, and the send/receive
timestamps. -/
structure PullQueueMessage where
  msg : List Nat
  len : Nat
  sent_time : ℚ
  receive_time : ℚ

/-- Modelled from the spec (§4.6, `serialqueue.c` is missing from `src/`):
`send` frames a payload for transmission, attaching a checksum and rejecting
payloads over the fixed maximum size. -/
def serialqueue_send (queue : List WireFrame) (cmd_id seq : Nat)
    (msg : List Nat) : Except SerialqueueError (List WireFrame) :=
  if h : msg.length ≤ MESSAGE_MAX then
    .ok (queue ++ [⟨cmd_id, seq, msg, (cmd_id + seq + msg.sum) % 256, h⟩])
  else
    .error .MessageTooLarge

/-- Modelled from the spec (§4.6): `pull` pops the next received frame from
the receive queue, copying its payload into the fixed-size message buffer
and stamping the observation times. -/
def serialqueue_pull :
    List WireFrame → ℚ → ℚ → Option (PullQueueMessage × List WireFrame)
  | [], _, _ => none
  | f :: fs, sent_time, receive_time =>
    some (⟨f.payload, f.payload.length, sent_time, receive_time⟩, fs)

/-- C7: every message on the transport wire carries a payload of at most the
fixed maximum of 64 bytes; in particular every message pulled from the
receive queue has length at most 64. -/
theorem serialqueue_message_max (queue : List WireFrame) (st rt : ℚ)
    (m : PullQueueMessage) (rest : List WireFrame)
    (h : serialqueue_pull queue st rt = some (m, rest)) :
    m.len ≤ MESSAGE_MAX ∧ m.msg.length ≤ 64 ∧ MESSAGE_MAX = 64 := by
  cases queue with
  | nil => exact absurd h (by simp [serialqueue_pull])
  | cons f fs =>
    simp only [serialqueue_pull, Option.some.injEq, Prod.mk.injEq] at h
    obtain ⟨hm, _⟩ := h
    subst hm
    exact ⟨f.payload_le, f.payload_le, rfl⟩

/-- Witness for C7 at a concrete receive queue. -/
theorem serialqueue_message_max_witness :
    (⟨[7, 8, 9], 3, 0, 1⟩ : PullQueueMessage).len ≤ MESSAGE_MAX ∧
    (⟨[7, 8, 9], 3, 0, 1⟩ : PullQueueMessage).msg.length ≤ 64 ∧
    MESSAGE_MAX = 64 :=
  serialqueue_message_max [⟨1, 2, [7, 8, 9], 24, by decide⟩] 0 1
    ⟨[7, 8, 9], 3, 0, 1⟩ [] rfl

/-- The kinematics transforms available for stepper configuration, exactly as
enumerated by the allocator declarations `defs_kin_cartesian` …
`defs_kin_extruder` and the `kin_*.c` entries of `SOURCE_FILES`, each with
its declared configuration parameters. -/
inductive KinematicsTransform where
  | cartesian (axis : Char)
  | corexy (ty : Char)
  | delta (arm2 tower_x tower_y : ℚ)
  | polar (ty : Char)
  | winch (anchor_x anchor_y anchor_z : ℚ)
  | extruder (smooth_time : ℚ)
deriving Repr, DecidableEq

/-- The `cartesian_stepper_alloc(char axis)` declaration. -/
def cartesian_stepper_alloc (axis : Char) : KinematicsTransform :=
  .cartesian axis

/-- The `corexy_stepper_alloc(char type)` declaration. -/
def corexy_stepper_alloc (ty : Char) : KinematicsTransform :=
  .corexy ty

/-- The `delta_stepper_alloc(double arm2, double tower_x, double tower_y)`
declaration: the delta transform is parameterized by arm length squared and
tower x/y coordinates. -/
def delta_stepper_alloc (arm2 tower_x tower_y : ℚ) : KinematicsTransform :=
  .delta arm2 tower_x tower_y

/-- The `polar_stepper_alloc(char type)` declaration. -/
def polar_stepper_alloc (ty : Char) : KinematicsTransform :=
  .polar ty

/-- The `winch_stepper_alloc(double anchor_x, double anchor_y,
double anchor_z)` declaration: the winch transform is parameterized by an
anchor point. -/
def winch_stepper_alloc (anchor_x anchor_y anchor_z : ℚ) :
    KinematicsTransform :=
  .winch anchor_x anchor_y anchor_z

/-- The `extruder_stepper_alloc(void)` declaration; the smoothing window
starts at zero. -/
def extruder_stepper_alloc : KinematicsTransform :=
  .extruder 0

/-- The `extruder_set_smooth_time` declaration: configures the extruder
transform's smoothing time window. -/
def extruder_set_smooth_time : KinematicsTransform → ℚ → KinematicsTransform
  | .extruder _, smooth_time => .extruder smooth_time
  | k, _ => k

/-- C8: the set of kinematics transforms available for stepper configuration
is exactly the six allocated by the declared allocators — cartesian, core-xy,
delta (arm length squared plus tower x/y), polar, winch (anchor point), and
extruder with its configurable smoothing time window. -/
theorem kinematics_transform_complete (k : KinematicsTransform) :
    (∃ axis, k = cartesian_stepper_alloc axis) ∨
    (∃ ty, k = corexy_stepper_alloc ty) ∨
    (∃ arm2 tower_x tower_y, k = delta_stepper_alloc arm2 tower_x tower_y) ∨
    (∃ ty, k = polar_stepper_alloc ty) ∨
    (∃ ax ay az, k = winch_stepper_alloc ax ay az) ∨
    (∃ s, k = extruder_set_smooth_time extruder_stepper_alloc s) := by
  cases k with
  | cartesian axis => exact Or.inl ⟨axis, rfl⟩
  | corexy ty => exact Or.inr (Or.inl ⟨ty, rfl⟩)
  | delta arm2 tower_x tower_y =>
    exact Or.inr (Or.inr (Or.inl ⟨arm2, tower_x, tower_y, rfl⟩))
  | polar ty => exact Or.inr (Or.inr (Or.inr (Or.inl ⟨ty, rfl⟩)))
  | winch ax ay az =>
    exact Or.inr (Or.inr (Or.inr (Or.inr (Or.inl ⟨ax, ay, az, rfl⟩))))
  | extruder s =>
    exact Or.inr (Or.inr (Or.inr (Or.inr (Or.inr ⟨s, rfl⟩))))

/-- Errors raised while constructing `ProbePointsHelper` from its
configuration (probe.py lines 225-241). -/
inductive ConfigError where
  | missingOption
  | parseError
  | tooFewPoints
deriving Repr, DecidableEq

/-- State of the `points` option in the configuration section read by
`ProbePointsHelper.__init__`: absent, present but not parseable as
comma-separated coordinate pairs, or parsed into a point list. -/
inductive PointsConfig where
  | absent
  | malformed
  | given (pts : List (ℚ × ℚ))
deriving DecidableEq

/-- Whether the `points` option is absent from the configuration section. -/
def PointsConfig.isAbsent : PointsConfig → Bool
  | .absent => true
  | _ => false

/-- Embedding of `ProbePointsHelper.__init__` (probe.py lines 225-241): the
probe points start as `default_points`; when no default is supplied or the
config section sets `points`, the configured value is used instead (a
missing option or an unparseable value raises a config error); finally,
fewer than 3 probe points raise a config error, so the helper object is
never created in that case.  Returns the helper's probe point list. -/
def probePointsHelper_init (default_points : Option (List (ℚ × ℚ)))
    (cfg : PointsConfig) : Except ConfigError (List (ℚ × ℚ)) :=
  match
    (if default_points.isNone || !cfg.isAbsent then
      match cfg with
      | .absent => Except.error ConfigError.missingOption
      | .malformed => Except.error ConfigError.parseError
      | .given pts => Except.ok pts
    else
      Except.ok (default_points.getD [])) with
  | .error e => .error e
  | .ok probe_points =>
    if probe_points.length < 3 then .error .tooFewPoints
    else .ok probe_points

/-- C9: constructing a `ProbePointsHelper` raises a configuration error
whenever the configured or default probe point list contains fewer than 3
points, and the helper is never created in that case (every successful
construction carries at least 3 points). -/
theorem probePointsHelper_min_points (default_points : Option (List (ℚ × ℚ)))
    (cfg : PointsConfig) :
    (∀ pts, probePointsHelper_init default_points cfg = .ok pts →
      3 ≤ pts.length) ∧
    (∀ pts, cfg = .given pts → pts.length < 3 →
      probePointsHelper_init default_points cfg = .error .tooFewPoints) ∧
    (∀ pts, default_points = some pts → cfg = .absent → pts.length < 3 →
      probePointsHelper_init default_points cfg = .error .tooFewPoints) := by
  refine ⟨?_, ?_, ?_⟩
  · intro pts h
    cases cfg with
    | absent =>
      cases default_points with
      | none => simp [probePointsHelper_init, PointsConfig.isAbsent] at h
      | some l =>
        by_cases h3 : l.length < 3
        · simp [probePointsHelper_init, PointsConfig.isAbsent, h3] at h
        · simp [probePointsHelper_init, PointsConfig.isAbsent, h3] at h
          subst h
          omega
    | malformed => simp [probePointsHelper_init, PointsConfig.isAbsent] at h
    | given l =>
      by_cases h3 : l.length < 3
      · simp [probePointsHelper_init, PointsConfig.isAbsent, h3] at h
      · simp [probePointsHelper_init, PointsConfig.isAbsent, h3] at h
        subst h
        omega
  · intro pts hcfg h3
    subst hcfg
    simp [probePointsHelper_init, PointsConfig.isAbsent, h3]
  · intro pts hdp hcfg h3
    subst hdp
    subst hcfg
    simp [probePointsHelper_init, PointsConfig.isAbsent, h3]

/-- Witness for C9 at concrete inputs: a two-point configured list is
rejected and a three-point list is accepted with at least 3 points. -/
theorem probePointsHelper_min_points_witness :
    probePointsHelper_init none (.given [(0, 0), (1, 1)])
      = .error .tooFewPoints ∧
    3 ≤ ([((0 : ℚ), (0 : ℚ)), (1, 1), (2, 2)]).length :=
  ⟨(probePointsHelper_min_points none (.given [(0, 0), (1, 1)])).2.1
      [(0, 0), (1, 1)] rfl (by decide),
    (probePointsHelper_min_points none (.given [(0, 0), (1, 1), (2, 2)])).1
      [(0, 0), (1, 1), (2, 2)] rfl⟩

/-- Embedding of the probe Z-median computation shared by
`PrinterProbe.cmd_PROBE_ACCURACY` (probe.py lines 124-132) and
`ProbePointsHelper._automatic_probe_point` (probe.py lines 310-324): sort
the readings, take the element at index `n / 2` for an odd count `n` and
the arithmetic mean of the elements at indices `n / 2` and `n / 2 - 1` for
an even count. -/
def probe_median (readings : List ℚ) : ℚ :=
  if readings.length % 2 = 1 then
    (readings.insertionSort (· ≤ ·)).getD (readings.length / 2) 0
  else
    ((readings.insertionSort (· ≤ ·)).getD (readings.length / 2) 0 +
      (readings.insertionSort (· ≤ ·)).getD (readings.length / 2 - 1) 0) / 2

/-- C10: reducing repeated probe Z readings to a median — for any sorted
permutation `s` of the readings, an odd count yields the middle element of
`s` and an even count yields the arithmetic mean of the two middle elements
of `s`. -/
theorem probe_median_spec (readings s : List ℚ) (hp : readings.Perm s)
    (hs : s.Sorted (· ≤ ·)) :
    (readings.length % 2 = 1 →
      probe_median readings = s.getD (readings.length / 2) 0) ∧
    (readings.length % 2 = 0 →
      probe_median readings
        = (s.getD (readings.length / 2) 0 +
            s.getD (readings.length / 2 - 1) 0) / 2) := by
  have hsorted : readings.insertionSort (· ≤ ·) = s :=
    List.eq_of_perm_of_sorted ((List.perm_insertionSort _ readings).trans hp)
      (List.sorted_insertionSort _ readings) hs
  constructor
  · intro hodd
    rw [probe_median, if_pos hodd, hsorted]
  · intro heven
    have hne : ¬ readings.length % 2 = 1 := by omega
    rw [probe_median, if_neg hne, hsorted]

/-- Witness for C10 at a concrete odd-length reading list. -/
theorem probe_median_spec_witness :
    probe_median [3, 1, 2]
      = ([1, 2, 3] : List ℚ).getD (([3, 1, 2] : List ℚ).length / 2) 0 :=
  (probe_median_spec [3, 1, 2] [1, 2, 3] (by decide) (by decide)).1 (by decide)
